import Mathlib

/-!
Verification of the traefik-plugin-block-useragents middleware.

The repository contains two variants of the same Go package:
* `main.go` — the version-threshold variant: `New` derives a regex from a
  browser name and a `version` field via `buildRegexPattern`, performs no
  configuration validation, and silently skips rules carrying neither a
  `regex` nor a `version`.
* `block_useragents.go` — the validated variant: `New` first runs
  `ValidateConfig` (non-empty browser list, every rule carries a `regex`)
  and compiles only explicit `regex` fields, ignoring `version`.

Both variants share the same `ServeHTTP` request-evaluation algorithm.

Strings are modelled as `List Char`.  Go's `regexp` engine (an external
collaborator of the repository) is modelled by a small regular-expression
AST `Re`, a syntax parser `compileModel` for the fragment of RE2 syntax
this plugin exercises, and a Brzozowski-derivative matcher `search`
implementing unanchored `MatchString` semantics.
-/

/-- Regular-expression AST modelling the compiled form of the RE2 fragment
used by the plugin.  `cls neg rs` is a character class given by inclusive
ranges `rs`, negated when `neg` is true; a single literal character `c` is
`cls false [(c, c)]`. -/
inductive Re where
  | emp : Re
  | eps : Re
  | cls (neg : Bool) (rs : List (Char × Char)) : Re
  | seq (a b : Re) : Re
  | alt (a b : Re) : Re
  | star (a : Re) : Re
deriving DecidableEq, Repr

/-- Character membership in a class: inside one of the ranges, flipped by
the negation flag. -/
def inCls (neg : Bool) (rs : List (Char × Char)) (c : Char) : Bool :=
  let m := rs.any (fun p => decide (p.1 ≤ c) && decide (c ≤ p.2))
  if neg then !m else m

/-- A single literal character as a class. -/
def chr (c : Char) : Re := Re.cls false [(c, c)]

/-- The class compiled from the escape sequence for decimal digits. -/
def digitCls : Re := Re.cls false [('0', '9')]

/-- The class compiled from the word-character escape sequence. -/
def wordCls : Re := Re.cls false [('0', '9'), ('A', 'Z'), ('_', '_'), ('a', 'z')]

/-- The class compiled from the whitespace escape sequence. -/
def spaceCls : Re := Re.cls false [('\t', '\n'), ('\x0c', '\x0d'), (' ', ' ')]

/-- The class compiled from the dot metacharacter (any char but newline). -/
def dotRe : Re := Re.cls true [('\n', '\n')]

/-- Language membership for the AST. -/
inductive Matches : Re → List Char → Prop where
  | eps : Matches Re.eps []
  | cls {neg : Bool} {rs : List (Char × Char)} {c : Char} :
      inCls neg rs c = true → Matches (Re.cls neg rs) [c]
  | seq {a b : Re} {s t : List Char} :
      Matches a s → Matches b t → Matches (Re.seq a b) (s ++ t)
  | altL {a b : Re} {s : List Char} : Matches a s → Matches (Re.alt a b) s
  | altR {a b : Re} {s : List Char} : Matches b s → Matches (Re.alt a b) s
  | starNil {a : Re} : Matches (Re.star a) []
  | starCons {a : Re} {s t : List Char} :
      Matches a s → Matches (Re.star a) t → Matches (Re.star a) (s ++ t)

/-- Does the expression accept the empty string? -/
def nullable : Re → Bool
  | Re.emp => false
  | Re.eps => true
  | Re.cls _ _ => false
  | Re.seq a b => nullable a && nullable b
  | Re.alt a b => nullable a || nullable b
  | Re.star _ => true

/-- Brzozowski derivative with respect to one character. -/
def derivRe : Re → Char → Re
  | Re.emp, _ => Re.emp
  | Re.eps, _ => Re.emp
  | Re.cls n rs, c => if inCls n rs c then Re.eps else Re.emp
  | Re.seq a b, c =>
      if nullable a then Re.alt (Re.seq (derivRe a c) b) (derivRe b c)
      else Re.seq (derivRe a c) b
  | Re.alt a b, c => Re.alt (derivRe a c) (derivRe b c)
  | Re.star a, c => Re.seq (derivRe a c) (Re.star a)

/-- Does the expression match some prefix of the string? -/
def matchPre (r : Re) : List Char → Bool
  | [] => nullable r
  | c :: s => nullable r || matchPre (derivRe r c) s

/-- Unanchored matching: the model of the matcher's MatchString method —
the expression matches some substring (possibly empty) of the input. -/
def search (r : Re) : List Char → Bool
  | [] => nullable r
  | c :: s => matchPre r (c :: s) || search r s

/-- The characters escaped by the regexp engine's QuoteMeta. -/
def isSpecialChar (c : Char) : Bool :=
  c = '\\' || c = '.' || c = '+' || c = '*' || c = '?' || c = '(' || c = ')' ||
  c = '|' || c = '[' || c = ']' || c = '\x7b' || c = '\x7d' || c = '^' || c = '$'

/-- Model of the regexp engine's QuoteMeta: escape every special character
with a backslash, so the result matches the argument literally. -/
def quoteMeta : List Char → List Char
  | [] => []
  | c :: s => if isSpecialChar c then '\\' :: c :: quoteMeta s else c :: quoteMeta s

/-- Is the character one of the postfix repetition operators? -/
def isPostfixOp (c : Char) : Bool := c = '*' || c = '+' || c = '?'

/-- Parser mode for the recursive-descent grammar: alternation, then
concatenation, then single (possibly repeated) atoms. -/
inductive PMode where
  | alt : PMode
  | sq : PMode
  | atom : PMode
deriving DecidableEq

/-- Character-class body parser: items after the opening bracket (and the
optional negation), up to the closing bracket.  Fuel makes it structural. -/
def parseClsItems : Nat → List Char → List (Char × Char) →
    Option (List (Char × Char) × List Char)
  | 0, _, _ => none
  | f + 1, s, acc =>
      match s with
      | [] => none
      | c :: t =>
        if c = ']' then if acc.isEmpty then none else some (acc.reverse, t)
        else if c = '\\' then
          match t with
          | [] => none
          | c2 :: t2 =>
            if isSpecialChar c2 then parseClsItems f t2 ((c2, c2) :: acc)
            else if c2 = 'd' then parseClsItems f t2 (('0', '9') :: acc)
            else none
        else
          match t with
          | '-' :: c2 :: t2 =>
            if c2 = ']' then parseClsItems f (c2 :: t2) (('-', '-') :: (c, c) :: acc)
            else if c ≤ c2 then parseClsItems f t2 ((c, c2) :: acc)
            else none
          | _ => parseClsItems f t ((c, c) :: acc)

/-- Fuel-indexed recursive-descent parser modelling the regexp engine's
syntax acceptance on the RE2 fragment the plugin exercises: literals,
escapes of special characters and of the d/w/s classes, the dot, character
classes, groups, the three postfix repetition operators and alternation.
Anchors and counted repetitions are outside the modelled fragment. -/
def parseM : Nat → PMode → List Char → Option (Re × List Char)
  | 0, _, _ => none
  | f + 1, PMode.alt, s =>
      match parseM f PMode.sq s with
      | none => none
      | some (r, t) =>
        match t with
        | [] => some (r, [])
        | c :: t2 =>
          if c = '|' then
            match parseM f PMode.alt t2 with
            | none => none
            | some (r2, t3) => some (Re.alt r r2, t3)
          else some (r, c :: t2)
  | f + 1, PMode.sq, s =>
      match s with
      | [] => some (Re.eps, [])
      | c :: s2 =>
        if c = ')' ∨ c = '|' then some (Re.eps, c :: s2)
        else
          match parseM f PMode.atom (c :: s2) with
          | none => none
          | some (r, t) =>
            match t with
            | [] =>
              match parseM f PMode.sq [] with
              | none => none
              | some (r2, u) => some (Re.seq r r2, u)
            | c2 :: t2 =>
              if c2 = '*' then
                match parseM f PMode.sq t2 with
                | none => none
                | some (r2, u) => some (Re.seq (Re.star r) r2, u)
              else if c2 = '+' then
                match parseM f PMode.sq t2 with
                | none => none
                | some (r2, u) => some (Re.seq (Re.seq r (Re.star r)) r2, u)
              else if c2 = '?' then
                match parseM f PMode.sq t2 with
                | none => none
                | some (r2, u) => some (Re.seq (Re.alt r Re.eps) r2, u)
              else
                match parseM f PMode.sq (c2 :: t2) with
                | none => none
                | some (r2, u) => some (Re.seq r r2, u)
  | f + 1, PMode.atom, s =>
      match s with
      | [] => none
      | c :: rest =>
        if c = '(' then
          match parseM f PMode.alt rest with
          | none => none
          | some (r, t) =>
            match t with
            | [] => none
            | c2 :: t2 => if c2 = ')' then some (r, t2) else none
        else if c = '\\' then
          match rest with
          | [] => none
          | c2 :: t2 =>
            if isSpecialChar c2 then some (chr c2, t2)
            else if c2 = 'd' then some (digitCls, t2)
            else if c2 = 'w' then some (wordCls, t2)
            else if c2 = 's' then some (spaceCls, t2)
            else none
        else if c = '[' then
          match rest with
          | [] => none
          | c2 :: rest2 =>
            if c2 = '^' then
              match parseClsItems f rest2 [] with
              | none => none
              | some (rs, t) => some (Re.cls true rs, t)
            else
              match parseClsItems f (c2 :: rest2) [] with
              | none => none
              | some (rs, t) => some (Re.cls false rs, t)
        else if c = '.' then some (dotRe, rest)
        else if c = '*' ∨ c = '+' ∨ c = '?' ∨ c = '|' ∨ c = ')' ∨ c = '^' ∨ c = '$'
        then none
        else some (chr c, rest)

/-- Model of the regexp engine's Compile: parse the whole pattern; any
leftover input (for example an unmatched closing parenthesis) is a syntax
error.  The fuel bound is generous for the grammar's call depth. -/
def compileModel (s : List Char) : Option Re :=
  match parseM (3 * s.length + 10) PMode.alt s with
  | some (r, []) => some r
  | _ => none

/-- One allow-list entry, from the Go struct BrowserConfig
(fields Name, Regex, Version). -/
structure BrowserConfig where
  name : List Char
  regex : List Char
  version : List Char
deriving DecidableEq, Repr

/-- The plugin configuration, from the Go struct Config
(fields AllowedBrowsers, AllowedOSTypes). -/
structure Config where
  allowedBrowsers : List BrowserConfig
  allowedOSTypes : List (List Char)
deriving DecidableEq, Repr

/-- Model of strings.TrimPrefix(version, ">"): drop one leading marker. -/
def trimGt (v : List Char) : List Char :=
  match v with
  | [] => []
  | c :: t => if c = '>' then t else c :: t

/-- Does the threshold string begin with the greater-than marker? -/
def startsWithGt (v : List Char) : Bool :=
  match v with
  | [] => false
  | c :: _ => decide (c = '>')

/-- The literal text of the generated suffix (backslash dot, backslash d,
plus, all grouped and starred) appended by buildRegexPattern. -/
def ddPatStr : List Char := ['(', '\\', '.', '\\', 'd', '+', ')', '*']

/-- Model of buildRegexPattern from main.go: QuoteMeta the browser name and
the threshold with its marker stripped, and produce
name/version followed by the starred dot-digits group. -/
def buildRegexPattern (browser version : List Char) : List Char :=
  quoteMeta browser ++ '/' :: (quoteMeta (trimGt version) ++ ddPatStr)

/-- The pattern selected for one rule by New in main.go: an explicit regex
wins, otherwise a non-empty version generates a pattern, otherwise the
rule is skipped. -/
def effPattern (bc : BrowserConfig) : Option (List Char) :=
  if bc.regex ≠ [] then some bc.regex
  else if bc.version ≠ [] then some (buildRegexPattern bc.name bc.version)
  else none

/-- Model of the message of the regexp engine's parse error. -/
def regexParseErr (pat : List Char) : List Char :=
  ("error parsing regexp: ").data ++ pat

/-- The error built by New for a browser pattern that fails to compile,
naming the rule and wrapping the underlying error. -/
def browserRegexErr (nm pat : List Char) : List Char :=
  ("error compiling browser regex for ").data ++ nm ++ (": ").data ++ regexParseErr pat

/-- The error built by New for an OS pattern that fails to compile, quoting
the pattern and wrapping the underlying error. -/
def osRegexErr (pat : List Char) : List Char :=
  ("error compiling OS regex ").data ++ '"' :: pat ++ '"' :: (": ").data ++ regexParseErr pat

/-- The browser-compilation loop of New in main.go. -/
def compileBrowsers : List BrowserConfig → Except (List Char) (List Re)
  | [] => Except.ok []
  | bc :: rest =>
      match effPattern bc with
      | none => compileBrowsers rest
      | some pat =>
        match compileModel pat with
        | none => Except.error (browserRegexErr bc.name pat)
        | some re => (compileBrowsers rest).map (fun rs => re :: rs)

/-- The OS-pattern compilation loop of New (identical in both variants). -/
def compileOSTypes : List (List Char) → Except (List Char) (List Re)
  | [] => Except.ok []
  | p :: rest =>
      match compileModel p with
      | none => Except.error (osRegexErr p)
      | some re => (compileOSTypes rest).map (fun rs => re :: rs)

/-- The filter instance, from the Go struct BlockUserAgents (the next
handler is kept abstract; the verdict records whether it is invoked). -/
structure BlockUserAgents where
  name : List Char
  regexpsAllow : List Re
  osRegexpsAllow : List Re
deriving DecidableEq, Repr

/-- Model of New from main.go (the version-threshold variant): no
validation; compile browser patterns, then OS patterns, aborting on the
first failure. -/
def NewMain (config : Config) (nm : List Char) : Except (List Char) BlockUserAgents :=
  match compileBrowsers config.allowedBrowsers with
  | Except.error e => Except.error e
  | Except.ok rs =>
    match compileOSTypes config.allowedOSTypes with
    | Except.error e => Except.error e
    | Except.ok os => Except.ok ⟨nm, rs, os⟩

/-- The rule check of ValidateConfig in block_useragents.go: the first rule
with an empty regex is a configuration error naming that rule. -/
def validateBrowsers : List BrowserConfig → Except (List Char) Unit
  | [] => Except.ok ()
  | bc :: rest =>
      if bc.regex = [] then
        Except.error (("regex must be provided for browser: ").data ++ bc.name)
      else validateBrowsers rest

/-- Model of ValidateConfig from block_useragents.go. -/
def ValidateConfig (config : Config) : Except (List Char) Unit :=
  if config.allowedBrowsers.length = 0 then
    Except.error ("at least one allowed browser must be specified").data
  else validateBrowsers config.allowedBrowsers

/-- The browser-compilation loop of New in block_useragents.go: rules with
an empty regex are skipped, version fields are ignored. -/
def compileBrowsersBlock : List BrowserConfig → Except (List Char) (List Re)
  | [] => Except.ok []
  | bc :: rest =>
      if bc.regex = [] then compileBrowsersBlock rest
      else
        match compileModel bc.regex with
        | none => Except.error (browserRegexErr bc.name bc.regex)
        | some re => (compileBrowsersBlock rest).map (fun rs => re :: rs)

/-- Model of New from block_useragents.go (the validated variant). -/
def NewBlock (config : Config) (nm : List Char) : Except (List Char) BlockUserAgents :=
  match ValidateConfig config with
  | Except.error e => Except.error e
  | Except.ok _ =>
    match compileBrowsersBlock config.allowedBrowsers with
    | Except.error e => Except.error e
    | Except.ok rs =>
      match compileOSTypes config.allowedOSTypes with
      | Except.error e => Except.error e
      | Except.ok os => Except.ok ⟨nm, rs, os⟩

/-- The verdict of one request evaluation.  The three reject verdicts are
written as HTTP 403, badRequest as HTTP 400, forward invokes the next
handler. -/
inductive Verdict where
  | badRequest : Verdict
  | rejectNoUserAgent : Verdict
  | rejectUnsupportedBrowser : Verdict
  | rejectUnsupportedOS : Verdict
  | forward : Verdict
deriving DecidableEq, Repr

/-- The request fields the evaluator reads (UserAgent returns the empty
string when the header is absent, so an absent header is the empty list). -/
structure Request where
  userAgent : List Char
  remoteAddr : List Char
  host : List Char
  requestURI : List Char
deriving DecidableEq, Repr

/-- The structured log record emitted for a blocked request, plus the
reason interpolated into the surrounding log line. -/
structure LogMessage where
  userAgent : List Char
  remoteAddr : List Char
  host : List Char
  requestURI : List Char
  reason : List Char
deriving DecidableEq, Repr

/-- Model of logBlockedRequest: the record built from the request. -/
def logBlockedRequest (req : Request) (reason : List Char) : LogMessage :=
  ⟨req.userAgent, req.remoteAddr, req.host, req.requestURI, reason⟩

/-- Model of ServeHTTP (identical in both variants): a nil request is a
400 with no log; an empty User-Agent is rejected at once; then the browser
matchers, then (only when configured) the OS matchers. -/
def serveHTTP (b : BlockUserAgents) (req : Option Request) : Verdict × Option LogMessage :=
  match req with
  | none => (Verdict.badRequest, none)
  | some r =>
    if r.userAgent = [] then
      (Verdict.rejectNoUserAgent, some (logBlockedRequest r ("No User-Agent").data))
    else if (b.regexpsAllow.any fun re => search re r.userAgent) = false then
      (Verdict.rejectUnsupportedBrowser,
        some (logBlockedRequest r ("Unsupported Browser").data))
    else if 0 < b.osRegexpsAllow.length then
      if (b.osRegexpsAllow.any fun re => search re r.userAgent) = false then
        (Verdict.rejectUnsupportedOS, some (logBlockedRequest r ("Unsupported OS").data))
      else (Verdict.forward, none)
    else (Verdict.forward, none)

/-- The HTTP status written for a verdict (none when the request is
forwarded to the next handler unchanged). -/
def statusWritten : Verdict → Option Nat
  | Verdict.badRequest => some 400
  | Verdict.forward => none
  | _ => some 403

/-- A literal string followed by a continuation, as the parser's
right-nested concatenation of single-character classes. -/
def litSeq : List Char → Re → Re
  | [], r => r
  | c :: l, r => Re.seq (chr c) (litSeq l r)

/-- The compiled form of the generated starred dot-digits suffix. -/
def ddStarRe : Re :=
  Re.seq
    (Re.star (Re.seq (chr '.')
      (Re.seq (Re.seq digitCls (Re.star digitCls)) Re.eps)))
    Re.eps

/-- The compiled matcher of a version-generated pattern: the literal
name/version text followed by the starred dot-digits suffix. -/
def vRe (n v : List Char) : Re := litSeq (n ++ '/' :: v) ddStarRe

/-- Strings consisting of zero or more groups of a dot followed by one or
more decimal digits — the language denoted by the generated suffix. -/
inductive DotGroups : List Char → Prop where
  | nil : DotGroups []
  | grp (d : Char) (ds e : List Char) :
      ('0' ≤ d ∧ d ≤ '9') → (∀ c ∈ ds, '0' ≤ c ∧ c ≤ '9') → DotGroups e →
      DotGroups ('.' :: d :: (ds ++ e))

/-- Split a version string on dots (Modelled from the spec: the source has
no version-comparison code; this and the next two definitions render the
spec's component-wise comparison, used only to exhibit divergence). -/
def splitDots : List Char → List (List Char)
  | [] => [[]]
  | '.' :: t => [] :: splitDots t
  | c :: t =>
      match splitDots t with
      | h :: r => (c :: h) :: r
      | [] => [[c]]

/-- Parse one version component as a nonnegative integer; empty or
non-numeric components fail. -/
def parseComp (s : List Char) : Option Nat :=
  if s ≠ [] ∧ s.all (fun c => decide ('0' ≤ c) && decide (c ≤ '9')) then
    some (s.foldl (fun a c => a * 10 + (c.toNat - ('0').toNat)) 0)
  else none

/-- Component-wise greater-than on parsed components: the first differing
pair decides; equal sequences are not greater; any failed component fails
closed. -/
def compGt : List (Option Nat) → List (Option Nat) → Bool
  | [], [] => false
  | some a :: as2, some b :: bs =>
      if b < a then true else if a < b then false else compGt as2 bs
  | _, _ => false

/-- The spec's version comparison (§4.2): split both on dots, right-pad the
shorter with zero components, compare left to right as integers, failing
closed on non-numeric components. -/
def specVersionGt (v t : List Char) : Bool :=
  let vs := (splitDots v).map parseComp
  let ts := (splitDots t).map parseComp
  let n := max vs.length ts.length
  compGt (vs ++ List.replicate (n - vs.length) (some 0))
    (ts ++ List.replicate (n - ts.length) (some 0))

/-- A continuation is safe to concatenate after a literal when it does not
begin with a postfix repetition operator (which would bind to the last
literal atom). -/
def restSafe : List Char → Bool
  | [] => true
  | c :: _ => !isPostfixOp c

deriving instance DecidableEq for Except

/-- Nothing matches the empty expression. -/
theorem emp_inv {w : List Char} (h : Matches Re.emp w) : False := by
  cases h

/-- Inversion for the empty-string expression. -/
theorem eps_inv {w : List Char} (h : Matches Re.eps w) : w = [] := by
  cases h; rfl

/-- Inversion for classes: exactly the one-character strings inside. -/
theorem cls_inv {n : Bool} {rs : List (Char × Char)} {w : List Char}
    (h : Matches (Re.cls n rs) w) : ∃ c, w = [c] ∧ inCls n rs c = true := by
  cases h with
  | cls hc => exact ⟨_, rfl, hc⟩

/-- Inversion for concatenation. -/
theorem seq_inv {a b : Re} {w : List Char} (h : Matches (Re.seq a b) w) :
    ∃ s t, w = s ++ t ∧ Matches a s ∧ Matches b t := by
  cases h with
  | seq hs ht => exact ⟨_, _, rfl, hs, ht⟩

/-- Inversion for alternation. -/
theorem alt_inv {a b : Re} {w : List Char} (h : Matches (Re.alt a b) w) :
    Matches a w ∨ Matches b w := by
  cases h with
  | altL h => exact Or.inl h
  | altR h => exact Or.inr h

/-- The empty string is accepted exactly by nullable expressions. -/
theorem nullable_iff : ∀ (r : Re), nullable r = true ↔ Matches r []
  | Re.emp => by
      simp only [nullable, Bool.false_eq_true, false_iff]
      exact emp_inv
  | Re.eps => by
      simp only [nullable, true_iff]
      exact Matches.eps
  | Re.cls n rs => by
      simp only [nullable, Bool.false_eq_true, false_iff]
      intro h
      rcases cls_inv h with ⟨c, hc, _⟩
      cases hc
  | Re.seq a b => by
      simp only [nullable, Bool.and_eq_true, nullable_iff a, nullable_iff b]
      constructor
      · rintro ⟨ha, hb⟩
        simpa using Matches.seq ha hb
      · intro h
        rcases seq_inv h with ⟨s, t, hst, ha, hb⟩
        rcases List.append_eq_nil.mp hst.symm with ⟨hs, ht⟩
        subst hs; subst ht
        exact ⟨ha, hb⟩
  | Re.alt a b => by
      simp only [nullable, Bool.or_eq_true, nullable_iff a, nullable_iff b]
      constructor
      · rintro (h | h)
        · exact Matches.altL h
        · exact Matches.altR h
      · intro h
        exact alt_inv h
  | Re.star a => by
      simp only [nullable, true_iff]
      exact Matches.starNil

/-- A star match is empty or splits off a non-empty first iterate. -/
theorem starMatch_inv : ∀ {r w}, Matches r w → ∀ {a : Re}, r = Re.star a →
    w = [] ∨ ∃ s t, s ≠ [] ∧ w = s ++ t ∧ Matches a s ∧ Matches (Re.star a) t := by
  intro r w h
  induction h with
  | eps => intro a hr; cases hr
  | cls _ => intro a hr; cases hr
  | seq _ _ _ _ => intro a hr; cases hr
  | altL _ _ => intro a hr; cases hr
  | altR _ _ => intro a hr; cases hr
  | starNil => intro a hr; exact Or.inl rfl
  | starCons hs ht ihs iht =>
      intro a hr
      injection hr with ha
      subst ha
      rename_i s t
      by_cases hs0 : s = []
      · subst hs0
        simpa using iht rfl
      · exact Or.inr ⟨s, t, hs0, rfl, hs, ht⟩

/-- Derivative correctness: the derivative accepts exactly the tails of
accepted strings beginning with the derived character. -/
theorem derivRe_iff : ∀ (r : Re) (c : Char) (s : List Char),
    Matches (derivRe r c) s ↔ Matches r (c :: s) := by
  intro r
  induction r with
  | emp =>
      intro c s
      simp only [derivRe]
      exact ⟨fun h => (emp_inv h).elim, fun h => (emp_inv h).elim⟩
  | eps =>
      intro c s
      simp only [derivRe]
      exact ⟨fun h => (emp_inv h).elim,
        fun h => absurd (eps_inv h) (List.cons_ne_nil c s)⟩
  | cls n rs =>
      intro c s
      simp only [derivRe]
      by_cases hin : inCls n rs c = true
      · rw [if_pos hin]
        constructor
        · intro h
          rw [eps_inv h]
          exact Matches.cls hin
        · intro h
          rcases cls_inv h with ⟨c2, hc2, _⟩
          injection hc2 with h1 h2
          subst h2
          exact Matches.eps
      · rw [if_neg hin]
        constructor
        · intro h
          exact (emp_inv h).elim
        · intro h
          rcases cls_inv h with ⟨c2, hc2, hc2in⟩
          injection hc2 with h1 h2
          subst h1
          exact absurd hc2in hin
  | seq a b iha ihb =>
      intro c s
      simp only [derivRe]
      by_cases hn : nullable a = true
      · rw [if_pos hn]
        constructor
        · intro h
          rcases alt_inv h with h1 | h2
          · rcases seq_inv h1 with ⟨s1, s2, hss, hda, hb⟩
            subst hss
            have ha := (iha c s1).mp hda
            simpa using Matches.seq ha hb
          · have hb := (ihb c s).mp h2
            have ha := (nullable_iff a).mp hn
            simpa using Matches.seq ha hb
        · intro h
          rcases seq_inv h with ⟨s1, s2, hss, ha, hb⟩
          cases s1 with
          | nil =>
              rw [List.nil_append] at hss
              subst hss
              exact Matches.altR ((ihb c s).mpr hb)
          | cons c1 s1' =>
              injection hss with h1 h2
              subst h1
              subst h2
              exact Matches.altL (Matches.seq ((iha c s1').mpr ha) hb)
      · rw [if_neg hn]
        constructor
        · intro h
          rcases seq_inv h with ⟨s1, s2, hss, hda, hb⟩
          subst hss
          have ha := (iha c s1).mp hda
          simpa using Matches.seq ha hb
        · intro h
          rcases seq_inv h with ⟨s1, s2, hss, ha, hb⟩
          cases s1 with
          | nil =>
              exact absurd ((nullable_iff a).mpr ha) hn
          | cons c1 s1' =>
              injection hss with h1 h2
              subst h1
              subst h2
              exact Matches.seq ((iha c s1').mpr ha) hb
  | alt a b iha ihb =>
      intro c s
      simp only [derivRe]
      constructor
      · intro h
        rcases alt_inv h with h | h
        · exact Matches.altL ((iha c s).mp h)
        · exact Matches.altR ((ihb c s).mp h)
      · intro h
        rcases alt_inv h with h | h
        · exact Matches.altL ((iha c s).mpr h)
        · exact Matches.altR ((ihb c s).mpr h)
  | star a iha =>
      intro c s
      simp only [derivRe]
      constructor
      · intro h
        rcases seq_inv h with ⟨s1, s2, hss, hda, hst⟩
        subst hss
        have ha := (iha c s1).mp hda
        simpa using Matches.starCons ha hst
      · intro h
        rcases starMatch_inv h rfl with h0 | ⟨u, v, hne, heq, hu, hv⟩
        · exact absurd h0 (List.cons_ne_nil c s)
        · cases u with
          | nil => exact absurd rfl hne
          | cons c1 u' =>
              rw [List.cons_append] at heq
              injection heq with h1 h2
              subst h1
              subst h2
              exact Matches.seq ((iha c u').mpr hu) hv

/-- The prefix matcher finds exactly the matched prefixes. -/
theorem matchPre_iff : ∀ (s : List Char) (r : Re),
    matchPre r s = true ↔ ∃ p t, s = p ++ t ∧ Matches r p := by
  intro s
  induction s with
  | nil =>
      intro r
      simp only [matchPre]
      rw [nullable_iff]
      constructor
      · intro h
        exact ⟨[], [], rfl, h⟩
      · rintro ⟨p, t, hpt, hm⟩
        rcases List.append_eq_nil.mp hpt.symm with ⟨hp, _⟩
        subst hp
        exact hm
  | cons c s ih =>
      intro r
      simp only [matchPre, Bool.or_eq_true]
      constructor
      · rintro (h | h)
        · exact ⟨[], c :: s, rfl, (nullable_iff r).mp h⟩
        · rcases (ih (derivRe r c)).mp h with ⟨p, t, hpt, hm⟩
          subst hpt
          exact ⟨c :: p, t, rfl, (derivRe_iff r c p).mp hm⟩
      · rintro ⟨p, t, hpt, hm⟩
        cases p with
        | nil =>
            exact Or.inl ((nullable_iff r).mpr hm)
        | cons c1 p' =>
            rw [List.cons_append] at hpt
            injection hpt with h1 h2
            subst h1
            exact Or.inr ((ih (derivRe r c)).mpr ⟨p', t, h2, (derivRe_iff r c p').mpr hm⟩)

/-- Unanchored-search correctness: search succeeds exactly when some
substring is in the expression's language. -/
theorem search_iff : ∀ (s : List Char) (r : Re),
    search r s = true ↔ ∃ p m t, s = p ++ m ++ t ∧ Matches r m := by
  intro s
  induction s with
  | nil =>
      intro r
      simp only [search]
      rw [nullable_iff]
      constructor
      · intro h
        exact ⟨[], [], [], rfl, h⟩
      · rintro ⟨p, m, t, hpmt, hm⟩
        rcases List.append_eq_nil.mp hpmt.symm with ⟨h1, _⟩
        rcases List.append_eq_nil.mp h1 with ⟨_, hm0⟩
        subst hm0
        exact hm
  | cons c s ih =>
      intro r
      simp only [search, Bool.or_eq_true]
      constructor
      · rintro (h | h)
        · rcases (matchPre_iff (c :: s) r).mp h with ⟨p, t, hpt, hm⟩
          exact ⟨[], p, t, by simpa using hpt, hm⟩
        · rcases (ih r).mp h with ⟨p, m, t, hpmt, hm⟩
          subst hpmt
          exact ⟨c :: p, m, t, rfl, hm⟩
      · rintro ⟨p, m, t, hpmt, hm⟩
        cases p with
        | nil =>
            refine Or.inl ((matchPre_iff (c :: s) r).mpr ⟨m, t, ?_, hm⟩)
            simpa using hpmt
        | cons c1 p' =>
            rw [List.cons_append, List.cons_append] at hpmt
            injection hpmt with h1 h2
            subst h1
            exact Or.inr ((ih r).mpr ⟨p', m, t, h2, hm⟩)

/-- A single-character class matches exactly that character. -/
theorem chr_matches {c : Char} {w : List Char} :
    Matches (chr c) w ↔ w = [c] := by
  constructor
  · intro h
    simp only [chr] at h
    rcases cls_inv h with ⟨c2, hw, hin⟩
    subst hw
    simp only [inCls, List.any_cons, List.any_nil, Bool.or_false, if_false,
      Bool.and_eq_true, decide_eq_true_eq, Bool.false_eq_true] at hin
    rw [le_antisymm hin.2 hin.1]
  · intro h
    subst h
    exact Matches.cls (by simp [inCls])

/-- The literal part of a generated pattern matches exactly the literal
text followed by something in the continuation's language. -/
theorem litSeq_matches : ∀ (l : List Char) (r : Re) (w : List Char),
    Matches (litSeq l r) w ↔ ∃ e, w = l ++ e ∧ Matches r e
  | [], r, w => by
      simp only [litSeq, List.nil_append]
      constructor
      · intro h
        exact ⟨w, rfl, h⟩
      · rintro ⟨e, he, hm⟩
        subst he
        exact hm
  | c :: l, r, w => by
      simp only [litSeq]
      constructor
      · intro h
        rcases seq_inv h with ⟨s1, s2, hw, hc, hrest⟩
        rw [chr_matches] at hc
        subst hc
        rcases (litSeq_matches l r s2).mp hrest with ⟨e, he, hm⟩
        subst he
        subst hw
        exact ⟨e, rfl, hm⟩
      · rintro ⟨e, he, hm⟩
        subst he
        have h1 : Matches (chr c) [c] := chr_matches.mpr rfl
        have h2 := (litSeq_matches l r (l ++ e)).mpr ⟨e, rfl, hm⟩
        simpa using Matches.seq h1 h2

/-- The generated suffix accepts the empty string. -/
theorem ddStarRe_nil : Matches ddStarRe [] := by
  have h := Matches.seq (Matches.starNil
    (a := Re.seq (chr '.') (Re.seq (Re.seq digitCls (Re.star digitCls)) Re.eps)))
    Matches.eps
  simpa [ddStarRe] using h

/-- All-digit strings are in the star of the digit class. -/
theorem star_digit_of_all {ds : List Char} (h : ∀ c ∈ ds, '0' ≤ c ∧ c ≤ '9') :
    Matches (Re.star digitCls) ds := by
  induction ds with
  | nil => exact Matches.starNil
  | cons d ds ih =>
      have hd := h d (by simp)
      have h1 : Matches digitCls [d] :=
        Matches.cls (by simp [inCls, hd.1, hd.2])
      have h2 := ih (fun c hc => h c (by simp [hc]))
      simpa using Matches.starCons h1 h2

/-- Every dot-digits-groups string is accepted by the generated suffix. -/
theorem ddStarRe_of_dotGroups {e : List Char} (h : DotGroups e) :
    Matches ddStarRe e := by
  have hstar : Matches (Re.star (Re.seq (chr '.')
      (Re.seq (Re.seq digitCls (Re.star digitCls)) Re.eps))) e := by
    induction h with
    | nil => exact Matches.starNil
    | grp d ds e2 hd hds he ih =>
        have h1 : Matches (chr '.') ['.'] := chr_matches.mpr rfl
        have hdm : Matches digitCls [d] :=
          Matches.cls (by simp [inCls, hd.1, hd.2])
        have hplus : Matches (Re.seq digitCls (Re.star digitCls)) (d :: ds) := by
          simpa using Matches.seq hdm (star_digit_of_all hds)
        have h2 : Matches (Re.seq (Re.seq digitCls (Re.star digitCls)) Re.eps)
            (d :: ds) := by
          simpa using Matches.seq hplus Matches.eps
        have hgrp := Matches.seq h1 h2
        have := Matches.starCons hgrp ih
        simpa using this
  simpa [ddStarRe] using Matches.seq hstar Matches.eps

/-- Successful class-body parses are preserved by extra fuel. -/
theorem parseClsItems_mono : ∀ (f : Nat) (s : List Char) (acc : List (Char × Char))
    (r : List (Char × Char) × List Char) (f2 : Nat),
    parseClsItems f s acc = some r → f ≤ f2 → parseClsItems f2 s acc = some r := by
  intro f
  induction f with
  | zero =>
      intro s acc r f2 h _
      simp [parseClsItems] at h
  | succ f ih =>
      intro s acc r f2 h hle
      obtain ⟨f2', rfl⟩ : ∃ k, f2 = k + 1 := ⟨f2 - 1, by omega⟩
      have hle' : f ≤ f2' := by omega
      rw [parseClsItems.eq_def] at h ⊢
      simp only at h ⊢
      cases s with
      | nil => exact h
      | cons c t =>
        simp only at h ⊢
        by_cases hc1 : c = ']'
        · simp only [if_pos hc1] at h ⊢
          exact h
        · simp only [if_neg hc1] at h ⊢
          by_cases hc2 : c = '\\'
          · simp only [if_pos hc2] at h ⊢
            cases t with
            | nil => exact h
            | cons c2 t2 =>
              by_cases hs : isSpecialChar c2 = true
              · simp only [if_pos hs] at h ⊢
                exact ih _ _ _ _ h hle'
              · simp only [if_neg hs] at h ⊢
                by_cases hd : c2 = 'd'
                · simp only [if_pos hd] at h ⊢
                  exact ih _ _ _ _ h hle'
                · simp only [if_neg hd] at h ⊢
                  exact h
          · simp only [if_neg hc2] at h ⊢
            split at h
            · rename_i c2 t2
              by_cases he : c2 = ']'
              · simp only [if_pos he] at h ⊢
                exact ih _ _ _ _ h hle'
              · simp only [if_neg he] at h ⊢
                by_cases hrg : c ≤ c2
                · simp only [if_pos hrg] at h ⊢
                  exact ih _ _ _ _ h hle'
                · simp only [if_neg hrg] at h ⊢
                  exact h
            · rename_i hne
              exact ih _ _ _ _ h hle'

/-- Fuel-zero unfolding for the parser. -/
theorem parseM_zero (m : PMode) (s : List Char) : parseM 0 m s = none := rfl

/-- Unfolding of the parser's alternation mode at positive fuel. -/
theorem parseM_alt (f : Nat) (s : List Char) :
    parseM (f + 1) PMode.alt s =
      match parseM f PMode.sq s with
      | none => none
      | some (r, t) =>
        match t with
        | [] => some (r, [])
        | c :: t2 =>
          if c = '|' then
            match parseM f PMode.alt t2 with
            | none => none
            | some (r2, t3) => some (Re.alt r r2, t3)
          else some (r, c :: t2) := rfl

/-- Unfolding of the parser's concatenation mode at positive fuel. -/
theorem parseM_sq (f : Nat) (s : List Char) :
    parseM (f + 1) PMode.sq s =
      match s with
      | [] => some (Re.eps, [])
      | c :: s2 =>
        if c = ')' ∨ c = '|' then some (Re.eps, c :: s2)
        else
          match parseM f PMode.atom (c :: s2) with
          | none => none
          | some (r, t) =>
            match t with
            | [] =>
              match parseM f PMode.sq [] with
              | none => none
              | some (r2, u) => some (Re.seq r r2, u)
            | c2 :: t2 =>
              if c2 = '*' then
                match parseM f PMode.sq t2 with
                | none => none
                | some (r2, u) => some (Re.seq (Re.star r) r2, u)
              else if c2 = '+' then
                match parseM f PMode.sq t2 with
                | none => none
                | some (r2, u) => some (Re.seq (Re.seq r (Re.star r)) r2, u)
              else if c2 = '?' then
                match parseM f PMode.sq t2 with
                | none => none
                | some (r2, u) => some (Re.seq (Re.alt r Re.eps) r2, u)
              else
                match parseM f PMode.sq (c2 :: t2) with
                | none => none
                | some (r2, u) => some (Re.seq r r2, u) := rfl

/-- Unfolding of the parser's atom mode at positive fuel. -/
theorem parseM_atom (f : Nat) (s : List Char) :
    parseM (f + 1) PMode.atom s =
      match s with
      | [] => none
      | c :: rest =>
        if c = '(' then
          match parseM f PMode.alt rest with
          | none => none
          | some (r, t) =>
            match t with
            | [] => none
            | c2 :: t2 => if c2 = ')' then some (r, t2) else none
        else if c = '\\' then
          match rest with
          | [] => none
          | c2 :: t2 =>
            if isSpecialChar c2 then some (chr c2, t2)
            else if c2 = 'd' then some (digitCls, t2)
            else if c2 = 'w' then some (wordCls, t2)
            else if c2 = 's' then some (spaceCls, t2)
            else none
        else if c = '[' then
          match rest with
          | [] => none
          | c2 :: rest2 =>
            if c2 = '^' then
              match parseClsItems f rest2 [] with
              | none => none
              | some (rs, t) => some (Re.cls true rs, t)
            else
              match parseClsItems f (c2 :: rest2) [] with
              | none => none
              | some (rs, t) => some (Re.cls false rs, t)
        else if c = '.' then some (dotRe, rest)
        else if c = '*' ∨ c = '+' ∨ c = '?' ∨ c = '|' ∨ c = ')' ∨ c = '^' ∨ c = '$'
        then none
        else some (chr c, rest) := rfl

/-- Successful parses are preserved by extra fuel. -/
theorem parseM_mono : ∀ (f : Nat) (m : PMode) (s : List Char) (r : Re × List Char)
    (f2 : Nat), parseM f m s = some r → f ≤ f2 → parseM f2 m s = some r := by
  intro f
  induction f with
  | zero =>
      intro m s r f2 h _
      rw [parseM_zero] at h
      cases h
  | succ f ih =>
      intro m s r f2 h hle
      obtain ⟨f2', rfl⟩ : ∃ k, f2 = k + 1 := ⟨f2 - 1, by omega⟩
      have hle' : f ≤ f2' := by omega
      cases m with
      | alt =>
          rw [parseM_alt] at h ⊢
          cases hq : parseM f PMode.sq s with
          | none => simp only [hq] at h; cases h
          | some p =>
              obtain ⟨r1, t⟩ := p
              simp only [hq] at h
              simp only [ih _ _ _ _ hq hle']
              cases t with
              | nil => exact h
              | cons c t2 =>
                  simp only at h ⊢
                  by_cases hc : c = '|'
                  · rw [if_pos hc] at h ⊢
                    cases hq2 : parseM f PMode.alt t2 with
                    | none => simp only [hq2] at h; cases h
                    | some p2 =>
                        obtain ⟨r2, t3⟩ := p2
                        simp only [hq2] at h
                        simp only [ih _ _ _ _ hq2 hle']
                        exact h
                  · simp only [if_neg hc] at h ⊢
                    exact h
      | sq =>
          rw [parseM_sq] at h ⊢
          cases s with
          | nil => exact h
          | cons c s2 =>
              by_cases hcp : c = ')' ∨ c = '|'
              · simp only [if_pos hcp] at h ⊢
                exact h
              · simp only [if_neg hcp] at h ⊢
                cases hq : parseM f PMode.atom (c :: s2) with
                | none => simp only [hq] at h; cases h
                | some p =>
                    obtain ⟨r1, t⟩ := p
                    simp only [hq] at h
                    simp only [ih _ _ _ _ hq hle']
                    cases t with
                    | nil =>
                        cases hq2 : parseM f PMode.sq [] with
                        | none => simp only [hq2] at h; cases h
                        | some p2 =>
                            obtain ⟨r2, u⟩ := p2
                            simp only [hq2] at h
                            simp only [ih _ _ _ _ hq2 hle']
                            exact h
                    | cons c2 t2 =>
                        simp only at h ⊢
                        by_cases h2 : c2 = '*'
                        · rw [if_pos h2] at h ⊢
                          cases hq2 : parseM f PMode.sq t2 with
                          | none => simp only [hq2] at h; cases h
                          | some p2 =>
                              obtain ⟨r2, u⟩ := p2
                              simp only [hq2] at h
                              simp only [ih _ _ _ _ hq2 hle']
                              exact h
                        · simp only [if_neg h2] at h ⊢
                          by_cases h3 : c2 = '+'
                          · rw [if_pos h3] at h ⊢
                            cases hq2 : parseM f PMode.sq t2 with
                            | none => simp only [hq2] at h; cases h
                            | some p2 =>
                                obtain ⟨r2, u⟩ := p2
                                simp only [hq2] at h
                                simp only [ih _ _ _ _ hq2 hle']
                                exact h
                          · simp only [if_neg h3] at h ⊢
                            by_cases h4 : c2 = '?'
                            · rw [if_pos h4] at h ⊢
                              cases hq2 : parseM f PMode.sq t2 with
                              | none => simp only [hq2] at h; cases h
                              | some p2 =>
                                  obtain ⟨r2, u⟩ := p2
                                  simp only [hq2] at h
                                  simp only [ih _ _ _ _ hq2 hle']
                                  exact h
                            · simp only [if_neg h4] at h ⊢
                              cases hq2 : parseM f PMode.sq (c2 :: t2) with
                              | none => simp only [hq2] at h; cases h
                              | some p2 =>
                                  obtain ⟨r2, u⟩ := p2
                                  simp only [hq2] at h
                                  simp only [ih _ _ _ _ hq2 hle']
                                  exact h
      | atom =>
          rw [parseM_atom] at h ⊢
          cases s with
          | nil => exact h
          | cons c rest =>
              by_cases h1 : c = '('
              · simp only [if_pos h1] at h ⊢
                cases hq : parseM f PMode.alt rest with
                | none => simp only [hq] at h; cases h
                | some p =>
                    obtain ⟨r1, t⟩ := p
                    simp only [hq] at h
                    simp only [ih _ _ _ _ hq hle']
                    exact h
              · simp only [if_neg h1] at h ⊢
                by_cases h2 : c = '\\'
                · simp only [if_pos h2] at h ⊢
                  exact h
                · simp only [if_neg h2] at h ⊢
                  by_cases h3 : c = '['
                  · simp only [if_pos h3] at h ⊢
                    cases rest with
                    | nil => exact h
                    | cons c2 rest2 =>
                        by_cases h4 : c2 = '^'
                        · simp only [if_pos h4] at h ⊢
                          cases hq : parseClsItems f rest2 [] with
                          | none => simp only [hq] at h; cases h
                          | some p =>
                              obtain ⟨rs, t⟩ := p
                              simp only [hq] at h
                              simp only [parseClsItems_mono _ _ _ _ _ hq hle']
                              exact h
                        · simp only [if_neg h4] at h ⊢
                          cases hq : parseClsItems f (c2 :: rest2) [] with
                          | none => simp only [hq] at h; cases h
                          | some p =>
                              obtain ⟨rs, t⟩ := p
                              simp only [hq] at h
                              simp only [parseClsItems_mono _ _ _ _ _ hq hle']
                              exact h
                  · simp only [if_neg h3] at h ⊢
                    exact h

/-- Postfix operators are special characters. -/
theorem special_of_postfixOp {c : Char} (h : isPostfixOp c = true) :
    isSpecialChar c = true := by
  simp only [isPostfixOp, Bool.or_eq_true, decide_eq_true_eq] at h
  rcases h with (h | h) | h <;> subst h <;> decide

/-- Non-special characters are not postfix operators. -/
theorem postfixOp_eq_false {c : Char} (h : isSpecialChar c = false) :
    isPostfixOp c = false := by
  cases hp : isPostfixOp c with
  | false => rfl
  | true =>
      rw [special_of_postfixOp hp] at h
      cases h

/-- QuoteMeta distributes over concatenation. -/
theorem quoteMeta_append : ∀ (a b : List Char),
    quoteMeta (a ++ b) = quoteMeta a ++ quoteMeta b := by
  intro a b
  induction a with
  | nil => simp [quoteMeta]
  | cons c a ih =>
      by_cases hc : isSpecialChar c = true <;>
        simp [quoteMeta, hc, ih, List.append_eq]

/-- Escaping does not shorten a string. -/
theorem length_quoteMeta : ∀ (l : List Char), l.length ≤ (quoteMeta l).length := by
  intro l
  induction l with
  | nil => simp [quoteMeta]
  | cons c l ih =>
      simp only [quoteMeta]
      by_cases hc : isSpecialChar c = true
      · rw [if_pos hc]
        simp only [List.length_cons]
        omega
      · rw [if_neg hc]
        simp only [List.length_cons]
        omega

/-- An escaped string is empty only for the empty string. -/
theorem quoteMeta_eq_nil {l : List Char} (h : quoteMeta l = []) : l = [] := by
  cases l with
  | nil => rfl
  | cons c t =>
      simp only [quoteMeta] at h
      by_cases hc : isSpecialChar c = true
      · rw [if_pos hc] at h
        cases h
      · rw [if_neg hc] at h
        cases h

/-- The head of an escaped literal followed by a safe continuation is never
a postfix operator. -/
theorem append_head_safe (l rest : List Char) (hsafe : restSafe rest = true)
    {c2 : Char} {t2 : List Char} (h : quoteMeta l ++ rest = c2 :: t2) :
    isPostfixOp c2 = false := by
  cases l with
  | nil =>
      simp only [quoteMeta, List.nil_append] at h
      subst h
      simpa [restSafe] using hsafe
  | cons c l =>
      simp only [quoteMeta] at h
      by_cases hc : isSpecialChar c = true
      · rw [if_pos hc] at h
        rw [List.cons_append] at h
        injection h with h1 _
        subst h1
        decide
      · rw [if_neg hc] at h
        rw [List.cons_append] at h
        injection h with h1 _
        subst h1
        exact postfixOp_eq_false (Bool.eq_false_iff.mpr hc)

/-- A non-special character parses as a single literal atom. -/
theorem parseM_atom_lit {c : Char} (f : Nat) (rest : List Char)
    (hns : isSpecialChar c = false) :
    parseM (f + 1) PMode.atom (c :: rest) = some (chr c, rest) := by
  have hx : ∀ x : Char, isSpecialChar x = true → c ≠ x := by
    intro x hxs he
    subst he
    rw [hxs] at hns
    cases hns
  rw [parseM_atom]
  simp only
  rw [if_neg (hx '(' (by decide)), if_neg (hx '\\' (by decide)),
    if_neg (hx '[' (by decide)), if_neg (hx '.' (by decide))]
  rw [if_neg (show ¬(c = '*' ∨ c = '+' ∨ c = '?' ∨ c = '|' ∨ c = ')' ∨ c = '^' ∨ c = '$') by
    rintro (h | h | h | h | h | h | h) <;> exact hx _ (by decide) h)]

/-- An escaped special character parses as a single literal atom. -/
theorem parseM_atom_esc {c : Char} (f : Nat) (rest : List Char)
    (hs : isSpecialChar c = true) :
    parseM (f + 1) PMode.atom ('\\' :: c :: rest) = some (chr c, rest) := by
  rw [parseM_atom]
  simp [hs]

/-- Consuming an escaped literal in concatenation mode: if the safe
continuation parses, the whole parses to the literal followed by the
continuation's result. -/
theorem parseSeq_lit : ∀ (l : List Char) (f f0 : Nat) (rest : List Char) (r : Re)
    (t : List Char), restSafe rest = true → parseM f0 PMode.sq rest = some (r, t) →
    l.length + f0 ≤ f →
    parseM f PMode.sq (quoteMeta l ++ rest) = some (litSeq l r, t) := by
  intro l
  induction l with
  | nil =>
      intro f f0 rest r t hsafe hp hle
      simp only [quoteMeta, List.nil_append, litSeq]
      exact parseM_mono _ _ _ _ _ hp (by simpa using hle)
  | cons c l ih =>
      intro f f0 rest r t hsafe hp hle
      have hf0 : 1 ≤ f0 := by
        by_contra h0
        have h00 : f0 = 0 := by omega
        subst h00
        rw [parseM_zero] at hp
        cases hp
      simp only [List.length_cons] at hle
      obtain ⟨f1, rfl⟩ : ∃ k, f = k + 1 := ⟨f - 1, by omega⟩
      have hle1 : l.length + f0 ≤ f1 := by omega
      obtain ⟨f2, rfl⟩ : ∃ k, f1 = k + 1 := ⟨f1 - 1, by omega⟩
      by_cases hc : isSpecialChar c = true
      · have hqm : quoteMeta (c :: l) = '\\' :: c :: quoteMeta l := by
          simp [quoteMeta, hc]
        rw [hqm, List.cons_append, List.cons_append]
        rw [parseM_sq]
        simp only
        rw [if_neg (show ¬(('\\' : Char) = ')' ∨ ('\\' : Char) = '|') by decide)]
        rw [parseM_atom_esc f2 _ hc]
        simp only
        cases hql : quoteMeta l ++ rest with
        | nil =>
            rcases List.append_eq_nil.mp hql with ⟨hqnil, hrnil⟩
            have hlnil := quoteMeta_eq_nil hqnil
            subst hlnil
            subst hrnil
            have hcont := parseM_mono _ _ _ _ (f2 + 1) hp (by omega)
            rw [hcont]
            rfl
        | cons c2 t2 =>
            simp only
            have hnp := append_head_safe l rest hsafe hql
            have h1 : c2 ≠ '*' := fun he => by
              subst he; exact absurd hnp (by decide)
            have h2 : c2 ≠ '+' := fun he => by
              subst he; exact absurd hnp (by decide)
            have h3 : c2 ≠ '?' := fun he => by
              subst he; exact absurd hnp (by decide)
            rw [if_neg h1, if_neg h2, if_neg h3]
            have hcont := ih (f2 + 1) f0 rest r t hsafe hp hle1
            rw [hql] at hcont
            rw [hcont]
            rfl
      · have hcns : isSpecialChar c = false := Bool.eq_false_iff.mpr hc
        have hqm : quoteMeta (c :: l) = c :: quoteMeta l := by
          simp [quoteMeta, hc]
        rw [hqm, List.cons_append]
        rw [parseM_sq]
        simp only
        have hcp : ¬(c = ')' ∨ c = '|') := by
          rintro (he | he) <;> (subst he; exact absurd hcns (by decide))
        rw [if_neg hcp]
        rw [parseM_atom_lit f2 _ hcns]
        simp only
        cases hql : quoteMeta l ++ rest with
        | nil =>
            rcases List.append_eq_nil.mp hql with ⟨hqnil, hrnil⟩
            have hlnil := quoteMeta_eq_nil hqnil
            subst hlnil
            subst hrnil
            have hcont := parseM_mono _ _ _ _ (f2 + 1) hp (by omega)
            rw [hcont]
            rfl
        | cons c2 t2 =>
            simp only
            have hnp := append_head_safe l rest hsafe hql
            have h1 : c2 ≠ '*' := fun he => by
              subst he; exact absurd hnp (by decide)
            have h2 : c2 ≠ '+' := fun he => by
              subst he; exact absurd hnp (by decide)
            have h3 : c2 ≠ '?' := fun he => by
              subst he; exact absurd hnp (by decide)
            rw [if_neg h1, if_neg h2, if_neg h3]
            have hcont := ih (f2 + 1) f0 rest r t hsafe hp hle1
            rw [hql] at hcont
            rw [hcont]
            rfl

/-- The generated starred dot-digits suffix parses to its compiled form. -/
theorem ddPat_parse : parseM 20 PMode.sq ddPatStr = some (ddStarRe, []) := by decide

/-- An escaped literal followed by the generated suffix compiles to the
literal's atoms followed by the suffix's compiled form. -/
theorem compileModel_lit_dd (l : List Char) :
    compileModel (quoteMeta l ++ ddPatStr) = some (litSeq l ddStarRe) := by
  have hlen8 : (quoteMeta l ++ ddPatStr).length = (quoteMeta l).length + 8 := by
    simp [ddPatStr]
  have hql := length_quoteMeta l
  simp only [compileModel]
  have hsucc : 3 * (quoteMeta l ++ ddPatStr).length + 10 =
      (3 * (quoteMeta l ++ ddPatStr).length + 9) + 1 := rfl
  rw [hsucc, parseM_alt]
  have hseq := parseSeq_lit l (3 * (quoteMeta l ++ ddPatStr).length + 9) 20 ddPatStr
    ddStarRe [] (by decide) ddPat_parse (by omega)
  rw [hseq]

/-- Every pattern produced by buildRegexPattern compiles, to the literal
name/version text followed by the starred dot-digits suffix. -/
theorem compileModel_buildRegex (n v : List Char) :
    compileModel (buildRegexPattern n v) = some (vRe n (trimGt v)) := by
  have hslash : quoteMeta ('/' :: trimGt v) = '/' :: quoteMeta (trimGt v) := by
    simp [quoteMeta, show isSpecialChar '/' = false from by decide]
  have hpat : buildRegexPattern n v =
      quoteMeta (n ++ '/' :: trimGt v) ++ ddPatStr := by
    rw [buildRegexPattern, quoteMeta_append, hslash]
    simp
  rw [hpat, compileModel_lit_dd]
  rfl

/-- Unanchored matching of a version-generated matcher is exactly substring
containment of the literal name/version text: the starred dot-digits tail
can always match empty, so it adds nothing under unanchored search. -/
theorem search_vRe_iff (n v ua : List Char) :
    search (vRe n v) ua = true ↔ ∃ pre suf, ua = pre ++ (n ++ '/' :: v) ++ suf := by
  rw [search_iff]
  constructor
  · rintro ⟨p, m, t, hpmt, hm⟩
    rw [vRe] at hm
    rcases (litSeq_matches _ _ _).mp hm with ⟨e, hme, _⟩
    subst hme
    subst hpmt
    exact ⟨p, e ++ t, by simp⟩
  · rintro ⟨pre, suf, hua⟩
    subst hua
    refine ⟨pre, n ++ '/' :: v, suf, rfl, ?_⟩
    rw [vRe]
    exact (litSeq_matches _ _ _).mpr ⟨[], by simp, ddStarRe_nil⟩

/-- A version matcher accepts the literal text followed by a dot-digits
extension wherever it occurs in the string. -/
theorem search_vRe_ext (n v pre ext suf : List Char) (hext : DotGroups ext) :
    search (vRe n v) (pre ++ (n ++ '/' :: v) ++ (ext ++ suf)) = true := by
  rw [search_iff]
  refine ⟨pre, (n ++ '/' :: v) ++ ext, suf, by simp, ?_⟩
  rw [vRe]
  exact (litSeq_matches _ _ _).mpr ⟨ext, rfl, ddStarRe_of_dotGroups hext⟩

/-- The per-rule pattern choice of New in main.go for a version rule. -/
theorem effPattern_version (bc : BrowserConfig) (hr : bc.regex = [])
    (hv : bc.version ≠ []) :
    effPattern bc = some (buildRegexPattern bc.name bc.version) := by
  simp [effPattern, hr, hv]

/-- A rule with a version and no explicit regex compiles to the generated
version matcher and never takes the error branch. -/
theorem compileBrowsers_version (bc : BrowserConfig) (rest : List BrowserConfig)
    (hr : bc.regex = []) (hv : bc.version ≠ []) :
    compileBrowsers (bc :: rest) =
      (compileBrowsers rest).map (fun rs => vRe bc.name (trimGt bc.version) :: rs) := by
  rw [compileBrowsers, effPattern_version bc hr hv]
  simp only
  rw [compileModel_buildRegex]

/-- A rule with an explicit regex compiles that regex, whatever the
version field holds. -/
theorem compileBrowsers_regex (bc : BrowserConfig) (rest : List BrowserConfig)
    (hr : bc.regex ≠ []) :
    compileBrowsers (bc :: rest) =
      match compileModel bc.regex with
      | none => Except.error (browserRegexErr bc.name bc.regex)
      | some re => (compileBrowsers rest).map (fun rs => re :: rs) := by
  rw [compileBrowsers]
  have heff : effPattern bc = some bc.regex := by simp [effPattern, hr]
  rw [heff]

/-- A rule with neither regex nor version is skipped silently. -/
theorem compileBrowsers_skip (bc : BrowserConfig) (rest : List BrowserConfig)
    (hr : bc.regex = []) (hv : bc.version = []) :
    compileBrowsers (bc :: rest) = compileBrowsers rest := by
  rw [compileBrowsers]
  have heff : effPattern bc = none := by simp [effPattern, hr, hv]
  rw [heff]

/-- When the browser loop aborts, the error is the compile error of a rule
of the list whose selected pattern fails to compile. -/
theorem compileBrowsers_error_inv : ∀ (l : List BrowserConfig) (e : List Char),
    compileBrowsers l = Except.error e →
    ∃ bc ∈ l, ∃ p, effPattern bc = some p ∧ compileModel p = none ∧
      e = browserRegexErr bc.name p := by
  intro l
  induction l with
  | nil =>
      intro e h
      rw [compileBrowsers] at h
      cases h
  | cons bc rest ih =>
      intro e h
      rw [compileBrowsers] at h
      cases heff : effPattern bc with
      | none =>
          rw [heff] at h
          rcases ih e h with ⟨bc', hmem, p, h1, h2, h3⟩
          exact ⟨bc', List.mem_cons_of_mem _ hmem, p, h1, h2, h3⟩
      | some pat =>
          rw [heff] at h
          simp only at h
          cases hcm : compileModel pat with
          | none =>
              rw [hcm] at h
              simp only at h
              injection h with he
              exact ⟨bc, List.mem_cons_self _ _, pat, heff, hcm, he.symm⟩
          | some re =>
              rw [hcm] at h
              simp only at h
              cases hcb : compileBrowsers rest with
              | error e2 =>
                  rw [hcb] at h
                  simp only [Except.map] at h
                  injection h with he
                  subst he
                  rcases ih e2 hcb with ⟨bc', hmem, p, h1, h2, h3⟩
                  exact ⟨bc', List.mem_cons_of_mem _ hmem, p, h1, h2, h3⟩
              | ok rs =>
                  rw [hcb] at h
                  simp only [Except.map] at h
                  cases h

/-- When the browser loop succeeds, every selected pattern compiles. -/
theorem compileBrowsers_ok_inv : ∀ (l : List BrowserConfig) (rs : List Re),
    compileBrowsers l = Except.ok rs →
    ∀ bc ∈ l, ∀ p, effPattern bc = some p → compileModel p ≠ none := by
  intro l
  induction l with
  | nil =>
      intro rs _ bc hmem
      cases hmem
  | cons b rest ih =>
      intro rs h bc hmem p hp hcm
      rw [compileBrowsers] at h
      rcases List.mem_cons.mp hmem with h1 | h1
      · subst h1
        rw [hp] at h
        simp only at h
        rw [hcm] at h
        simp only at h
        cases h
      · cases heff : effPattern b with
        | none =>
            rw [heff] at h
            exact ih rs h bc h1 p hp hcm
        | some pat =>
            rw [heff] at h
            simp only at h
            cases hcm2 : compileModel pat with
            | none =>
                rw [hcm2] at h
                simp only at h
                cases h
            | some re =>
                rw [hcm2] at h
                simp only at h
                cases hcb : compileBrowsers rest with
                | error e2 =>
                    rw [hcb] at h
                    simp only [Except.map] at h
                    cases h
                | ok rs2 =>
                    exact ih rs2 hcb bc h1 p hp hcm

/-- When the OS loop aborts, the error is the compile error of an OS
pattern of the list that fails to compile. -/
theorem compileOSTypes_error_inv : ∀ (l : List (List Char)) (e : List Char),
    compileOSTypes l = Except.error e →
    ∃ p ∈ l, compileModel p = none ∧ e = osRegexErr p := by
  intro l
  induction l with
  | nil =>
      intro e h
      rw [compileOSTypes] at h
      cases h
  | cons p rest ih =>
      intro e h
      rw [compileOSTypes] at h
      cases hcm : compileModel p with
      | none =>
          rw [hcm] at h
          simp only at h
          injection h with he
          exact ⟨p, List.mem_cons_self _ _, hcm, he.symm⟩
      | some re =>
          rw [hcm] at h
          simp only at h
          cases hcb : compileOSTypes rest with
          | error e2 =>
              rw [hcb] at h
              simp only [Except.map] at h
              injection h with he
              subst he
              rcases ih e2 hcb with ⟨p', hmem, h1, h2⟩
              exact ⟨p', List.mem_cons_of_mem _ hmem, h1, h2⟩
          | ok rs =>
              rw [hcb] at h
              simp only [Except.map] at h
              cases h

/-- When the OS loop succeeds, every OS pattern compiles. -/
theorem compileOSTypes_ok_inv : ∀ (l : List (List Char)) (rs : List Re),
    compileOSTypes l = Except.ok rs → ∀ p ∈ l, compileModel p ≠ none := by
  intro l
  induction l with
  | nil =>
      intro rs _ p hmem
      cases hmem
  | cons q rest ih =>
      intro rs h p hmem hcm
      rw [compileOSTypes] at h
      rcases List.mem_cons.mp hmem with h1 | h1
      · subst h1
        rw [hcm] at h
        simp only at h
        cases h
      · cases hcm2 : compileModel q with
        | none =>
            rw [hcm2] at h
            simp only at h
            cases h
        | some re =>
            rw [hcm2] at h
            simp only at h
            cases hcb : compileOSTypes rest with
            | error e2 =>
                rw [hcb] at h
                simp only [Except.map] at h
                cases h
            | ok rs2 =>
                exact ih rs2 hcb p h1 hcm

/-- The rule check reports the first rule missing a regex. -/
theorem validateBrowsers_error : ∀ (l : List BrowserConfig),
    (∃ bc ∈ l, bc.regex = []) →
    ∃ bc ∈ l, bc.regex = [] ∧
      validateBrowsers l =
        Except.error (("regex must be provided for browser: ").data ++ bc.name) := by
  intro l
  induction l with
  | nil =>
      rintro ⟨bc, hmem, _⟩
      cases hmem
  | cons b rest ih =>
      rintro ⟨bc, hmem, hr⟩
      by_cases hb : b.regex = []
      · refine ⟨b, List.mem_cons_self _ _, hb, ?_⟩
        rw [validateBrowsers, if_pos hb]
      · have hex : ∃ bc ∈ rest, bc.regex = [] := by
          rcases List.mem_cons.mp hmem with h1 | h1
          · subst h1
            exact absurd hr hb
          · exact ⟨bc, h1, hr⟩
        rcases ih hex with ⟨bc', hmem', hr', heq⟩
        refine ⟨bc', List.mem_cons_of_mem _ hmem', hr', ?_⟩
        rw [validateBrowsers, if_neg hb]
        exact heq

/-- No OS pattern matches exactly when every OS matcher fails. -/
theorem any_false_iff_all_not (l : List Re) (ua : List Char) :
    (l.any fun re => search re ua) = false ↔
      (l.all fun re => !search re ua) = true := by
  induction l with
  | nil => simp
  | cons re rest ih => simp_all

/-- C7: a nil request is answered with HTTP 400, no matcher logic runs and
no log entry is produced. -/
theorem c7_nil_request_bad_request (b : BlockUserAgents) :
    serveHTTP b none = (Verdict.badRequest, none) ∧
    statusWritten Verdict.badRequest = some 400 :=
  ⟨rfl, rfl⟩

/-- C2: whatever the compiled matcher set, a request with an empty (or
absent) User-Agent is rejected as RejectNoUserAgent with HTTP 403 before
any browser or OS matcher is consulted. -/
theorem c2_empty_user_agent_rejected (b : BlockUserAgents) (r : Request)
    (h : r.userAgent = []) :
    serveHTTP b (some r) =
      (Verdict.rejectNoUserAgent, some (logBlockedRequest r ("No User-Agent").data)) ∧
    statusWritten Verdict.rejectNoUserAgent = some 403 := by
  refine ⟨?_, rfl⟩
  simp [serveHTTP, h]

/-- C2 witness at a concrete matcher set and request. -/
theorem c2_empty_user_agent_rejected_witness :
    (⟨[], ("1.2.3.4").data, ("example.com").data, ("/").data⟩ : Request).userAgent = [] ∧
    (serveHTTP ⟨("p").data, [digitCls], [dotRe]⟩
        (some ⟨[], ("1.2.3.4").data, ("example.com").data, ("/").data⟩) =
      (Verdict.rejectNoUserAgent,
        some (logBlockedRequest ⟨[], ("1.2.3.4").data, ("example.com").data, ("/").data⟩
          ("No User-Agent").data)) ∧
    statusWritten Verdict.rejectNoUserAgent = some 403) :=
  ⟨rfl, c2_empty_user_agent_rejected _ _ rfl⟩

/-- C5 counterexample: a request whose empty User-Agent is matched by a
nullable browser matcher (compiled by Construct from an explicit star
pattern) with an empty OS list is not forwarded, contrary to the claim:
the empty-User-Agent rejection fires first. -/
theorem c5_os_step_counterexample :
    NewMain ⟨[⟨("A").data, ("a*").data, []⟩], []⟩ ("p").data =
      Except.ok ⟨("p").data, [Re.seq (Re.star (chr 'a')) Re.eps], []⟩ ∧
    ((⟨("p").data, [Re.seq (Re.star (chr 'a')) Re.eps], []⟩ :
        BlockUserAgents).regexpsAllow.any fun re => search re ([] : List Char)) = true ∧
    (⟨("p").data, [Re.seq (Re.star (chr 'a')) Re.eps], []⟩ :
        BlockUserAgents).osRegexpsAllow = [] ∧
    (serveHTTP ⟨("p").data, [Re.seq (Re.star (chr 'a')) Re.eps], []⟩
        (some ⟨[], ("1.2.3.4").data, ("h").data, ("/").data⟩)).1 =
      Verdict.rejectNoUserAgent ∧
    Verdict.rejectNoUserAgent ≠ Verdict.forward := by
  decide

/-- C5 amended: for every request with a NON-EMPTY User-Agent matching at
least one browser matcher, when the OS list is non-empty the verdict is
RejectUnsupportedOS exactly when no OS pattern matches, and when the OS
list is empty the OS step is skipped and the verdict is Forward. -/
theorem c5_os_step_amended (b : BlockUserAgents) (r : Request)
    (hua : r.userAgent ≠ [])
    (hm : (b.regexpsAllow.any fun re => search re r.userAgent) = true) :
    (b.osRegexpsAllow ≠ [] →
      ((serveHTTP b (some r)).1 = Verdict.rejectUnsupportedOS ↔
        (b.osRegexpsAllow.all fun re => !search re r.userAgent) = true)) ∧
    (b.osRegexpsAllow = [] → (serveHTTP b (some r)).1 = Verdict.forward) := by
  have hstep : serveHTTP b (some r) =
      (if 0 < b.osRegexpsAllow.length then
        if (b.osRegexpsAllow.any fun re => search re r.userAgent) = false then
          (Verdict.rejectUnsupportedOS, some (logBlockedRequest r ("Unsupported OS").data))
        else (Verdict.forward, none)
      else (Verdict.forward, none)) := by
    simp only [serveHTTP]
    rw [if_neg hua, if_neg (by simp [hm])]
  constructor
  · intro hos
    rw [hstep, if_pos (List.length_pos.mpr hos)]
    by_cases h2 : (b.osRegexpsAllow.any fun re => search re r.userAgent) = false
    · rw [if_pos h2]
      simp only
      exact ⟨fun _ => (any_false_iff_all_not _ _).mp h2, fun _ => trivial⟩
    · rw [if_neg h2]
      simp only
      constructor
      · intro hcontra
        cases hcontra
      · intro hall
        exact absurd ((any_false_iff_all_not _ _).mpr hall) h2
  · intro hos
    rw [hstep, if_neg (by simp [hos])]

/-- C5 amended witness at a concrete matcher set and request. -/
theorem c5_os_step_amended_witness :
    (⟨("Zeta/1").data, ("1.2.3.4").data, ("h").data, ("/").data⟩ : Request).userAgent ≠ [] ∧
    ((⟨("p").data, [chr 'Z'], [chr 'W']⟩ : BlockUserAgents).regexpsAllow.any
      fun re => search re (⟨("Zeta/1").data, ("1.2.3.4").data, ("h").data, ("/").data⟩ :
        Request).userAgent) = true ∧
    (((⟨("p").data, [chr 'Z'], [chr 'W']⟩ : BlockUserAgents).osRegexpsAllow ≠ [] →
      ((serveHTTP ⟨("p").data, [chr 'Z'], [chr 'W']⟩
          (some ⟨("Zeta/1").data, ("1.2.3.4").data, ("h").data, ("/").data⟩)).1 =
            Verdict.rejectUnsupportedOS ↔
        ((⟨("p").data, [chr 'Z'], [chr 'W']⟩ : BlockUserAgents).osRegexpsAllow.all
          fun re => !search re (⟨("Zeta/1").data, ("1.2.3.4").data, ("h").data, ("/").data⟩ :
            Request).userAgent) = true)) ∧
    ((⟨("p").data, [chr 'Z'], [chr 'W']⟩ : BlockUserAgents).osRegexpsAllow = [] →
      (serveHTTP ⟨("p").data, [chr 'Z'], [chr 'W']⟩
        (some ⟨("Zeta/1").data, ("1.2.3.4").data, ("h").data, ("/").data⟩)).1 =
          Verdict.forward)) :=
  ⟨by decide, by decide, c5_os_step_amended _ _ (by decide) (by decide)⟩

/-- C1 counterexample: for the rule Firefox with threshold >122 and the
User-Agent Firefox/123.0, the extracted version 123.0 is component-wise
greater than 122, yet the compiled matcher (the literal Firefox/122
followed by an optional dot-digits tail) does not match: no numeric
comparison is performed by the code. -/
theorem c1_version_threshold_counterexample :
    specVersionGt (("123.0").data) (("122").data) = true ∧
    compileBrowsers [⟨("Firefox").data, [], (">122").data⟩] =
      Except.ok [vRe ("Firefox").data (("122").data)] ∧
    search (vRe ("Firefox").data (("122").data)) (("Firefox/123.0").data) = false := by
  refine ⟨by decide, ?_, by decide⟩
  rw [compileBrowsers_version _ _ rfl (by decide)]
  rfl

/-- C1 amended: for every rule whose versionThreshold begins with the
greater-than marker, the compiled matcher matches a User-Agent exactly
when the User-Agent contains the literal text name/threshold (marker
stripped) as a substring; no component-wise numeric comparison happens. -/
theorem c1_version_threshold_amended (n v ua : List Char)
    (hgt : startsWithGt v = true) :
    compileBrowsers [⟨n, [], v⟩] = Except.ok [vRe n (trimGt v)] ∧
    (search (vRe n (trimGt v)) ua = true ↔
      ∃ pre suf, ua = pre ++ (n ++ '/' :: trimGt v) ++ suf) := by
  have hv : v ≠ [] := by
    intro he
    subst he
    simp [startsWithGt] at hgt
  refine ⟨?_, search_vRe_iff n (trimGt v) ua⟩
  rw [compileBrowsers_version _ _ rfl hv]
  rfl

/-- C1 amended witness at a concrete rule and User-Agent. -/
theorem c1_version_threshold_amended_witness :
    startsWithGt ((">122").data) = true ∧
    (compileBrowsers [⟨("Firefox").data, [], (">122").data⟩] =
        Except.ok [vRe ("Firefox").data (trimGt ((">122").data))] ∧
      (search (vRe ("Firefox").data (trimGt ((">122").data)))
          (("xxFirefox/122.9yy").data) = true ↔
        ∃ pre suf, ("xxFirefox/122.9yy").data =
          pre ++ (("Firefox").data ++ '/' :: trimGt ((">122").data)) ++ suf)) :=
  ⟨by decide, c1_version_threshold_amended _ _ _ (by decide)⟩

/-- C6: for a rule whose threshold has no marker, the derived pattern text
is the escaped name, a slash, the escaped threshold and the starred
dot-digits group, and a User-Agent containing the name, slash, exact
threshold and a finer dotted numeric sub-version matches the compiled
rule. -/
theorem c6_exact_prefix_pattern (n v pre ext suf : List Char) (hv : v ≠ [])
    (hgt : startsWithGt v = false) (hext : DotGroups ext) :
    buildRegexPattern n v = quoteMeta n ++ '/' :: (quoteMeta v ++ ddPatStr) ∧
    compileBrowsers [⟨n, [], v⟩] = Except.ok [vRe n v] ∧
    search (vRe n v) (pre ++ (n ++ '/' :: v) ++ (ext ++ suf)) = true := by
  have htrim : trimGt v = v := by
    cases v with
    | nil => rfl
    | cons c t =>
        have hc : ¬ c = '>' := by
          intro he
          subst he
          simp [startsWithGt] at hgt
        simp [trimGt, hc]
  refine ⟨?_, ?_, search_vRe_ext n v pre ext suf hext⟩
  · rw [buildRegexPattern, htrim]
  · rw [compileBrowsers_version _ _ rfl hv, htrim]
    rfl

/-- C6 witness: threshold 121 accepts the finer sub-version 121.5.2. -/
theorem c6_exact_prefix_pattern_witness :
    (("121").data ≠ []) ∧
    startsWithGt (("121").data) = false ∧
    DotGroups (('.' : Char) :: '5' :: '.' :: '2' :: []) ∧
    (buildRegexPattern ("Chrome").data (("121").data) =
        quoteMeta ("Chrome").data ++ '/' :: (quoteMeta (("121").data) ++ ddPatStr) ∧
      compileBrowsers [⟨("Chrome").data, [], ("121").data⟩] =
        Except.ok [vRe ("Chrome").data (("121").data)] ∧
      search (vRe ("Chrome").data (("121").data))
        ((("Mozilla ").data ++ (("Chrome").data ++ '/' :: ("121").data) ++
          ((('.' : Char) :: '5' :: '.' :: '2' :: []) ++ (" x").data))) = true) := by
  have hext : DotGroups (('.' : Char) :: '5' :: '.' :: '2' :: []) :=
    DotGroups.grp '5' [] ('.' :: '2' :: []) (by decide)
      (by intro c hc; cases hc)
      (DotGroups.grp '2' [] [] (by decide) (by intro c hc; cases hc) DotGroups.nil)
  exact ⟨by decide, by decide, hext,
    c6_exact_prefix_pattern _ _ _ _ _ (by decide) (by decide) hext⟩

/-- C9: when a rule carries both an explicit regex and a version, the
explicit regex is compiled and the version is ignored entirely — the
resulting matcher is exactly the compiled explicit pattern. -/
theorem c9_explicit_pattern_wins (n rgx v : List Char) (rest : List BrowserConfig)
    (hr : rgx ≠ []) (hv : v ≠ []) :
    (∀ v2, compileBrowsers (⟨n, rgx, v⟩ :: rest) =
      compileBrowsers (⟨n, rgx, v2⟩ :: rest)) ∧
    (∀ re, compileModel rgx = some re →
      compileBrowsers (⟨n, rgx, v⟩ :: rest) =
        (compileBrowsers rest).map (fun rs => re :: rs)) := by
  constructor
  · intro v2
    rw [compileBrowsers_regex ⟨n, rgx, v⟩ rest hr,
      compileBrowsers_regex ⟨n, rgx, v2⟩ rest hr]
  · intro re hre
    rw [compileBrowsers_regex ⟨n, rgx, v⟩ rest hr, hre]

/-- C9 witness at a concrete rule carrying both fields. -/
theorem c9_explicit_pattern_wins_witness :
    (("a").data ≠ []) ∧ ((">9").data ≠ []) ∧
    ((∀ v2, compileBrowsers (⟨("A").data, ("a").data, (">9").data⟩ :: []) =
        compileBrowsers (⟨("A").data, ("a").data, v2⟩ :: [])) ∧
      (∀ re, compileModel (("a").data) = some re →
        compileBrowsers (⟨("A").data, ("a").data, (">9").data⟩ :: []) =
          (compileBrowsers []).map (fun rs => re :: rs))) :=
  ⟨by decide, by decide,
    c9_explicit_pattern_wins _ _ _ _ (by decide) (by decide)⟩

/-- C10: every generated version pattern compiles (both name and stripped
threshold are escaped), so the compile-error branch is unreachable for
version rules: such a rule always contributes its matcher. -/
theorem c10_generated_pattern_always_compiles (n v : List Char) (hv : v ≠ []) :
    compileModel (buildRegexPattern n v) = some (vRe n (trimGt v)) ∧
    ∀ rest, compileBrowsers (⟨n, [], v⟩ :: rest) =
      (compileBrowsers rest).map (fun rs => vRe n (trimGt v) :: rs) :=
  ⟨compileModel_buildRegex n v, fun rest => compileBrowsers_version _ rest rfl hv⟩

/-- C10 witness at a concrete name and marked threshold. -/
theorem c10_generated_pattern_always_compiles_witness :
    ((">130").data ≠ []) ∧
    (compileModel (buildRegexPattern ("Chrome").data ((">130").data)) =
        some (vRe ("Chrome").data (trimGt ((">130").data))) ∧
      ∀ rest, compileBrowsers (⟨("Chrome").data, [], (">130").data⟩ :: rest) =
        (compileBrowsers rest).map
          (fun rs => vRe ("Chrome").data (trimGt ((">130").data)) :: rs)) :=
  ⟨by decide, c10_generated_pattern_always_compiles _ _ (by decide)⟩

/-- C3 counterexample: the version-threshold variant's Construct (New in
main.go) accepts a configuration with an empty browser-rule list and
returns a filter instance with no matchers, instead of failing. -/
theorem c3_empty_browser_list_counterexample :
    NewMain ⟨[], []⟩ ("p").data = Except.ok ⟨("p").data, [], []⟩ := by
  decide

/-- C3 amended: on an empty browser-rule list the validated variant's
Construct (New in block_useragents.go) fails with the configuration error,
while the version-threshold variant's Construct (New in main.go) succeeds
and returns a filter with no browser matchers. -/
theorem c3_empty_browser_list_amended (cfg : Config) (nm : List Char)
    (h : cfg.allowedBrowsers = []) :
    NewBlock cfg nm =
      Except.error ("at least one allowed browser must be specified").data ∧
    (cfg.allowedOSTypes = [] → NewMain cfg nm = Except.ok ⟨nm, [], []⟩) := by
  constructor
  · simp [NewBlock, ValidateConfig, h]
  · intro hos
    simp [NewMain, h, hos, compileBrowsers, compileOSTypes]

/-- C3 amended witness at the empty configuration. -/
theorem c3_empty_browser_list_amended_witness :
    (⟨[], []⟩ : Config).allowedBrowsers = [] ∧
    (NewBlock ⟨[], []⟩ ("p").data =
        Except.error ("at least one allowed browser must be specified").data ∧
      ((⟨[], []⟩ : Config).allowedOSTypes = [] →
        NewMain ⟨[], []⟩ ("p").data = Except.ok ⟨("p").data, [], []⟩)) :=
  ⟨rfl, c3_empty_browser_list_amended _ _ rfl⟩

/-- C4 counterexample: the version-threshold variant's Construct (New in
main.go) silently skips a rule carrying neither regex nor version and
succeeds, contributing no matcher and naming no rule. -/
theorem c4_inert_rule_counterexample :
    NewMain ⟨[⟨("Ghost").data, [], []⟩], []⟩ ("p").data =
      Except.ok ⟨("p").data, [], []⟩ := by
  decide

/-- C4 amended: when some rule lacks both fields, the validated variant's
Construct fails naming a rule with a missing regex, while in the
version-threshold variant such a rule is silently skipped by the
compilation loop. -/
theorem c4_inert_rule_amended (cfg : Config) (nm : List Char) (bc : BrowserConfig)
    (hmem : bc ∈ cfg.allowedBrowsers) (hr : bc.regex = []) (hv : bc.version = []) :
    (∃ bc2, bc2 ∈ cfg.allowedBrowsers ∧ bc2.regex = [] ∧
      NewBlock cfg nm =
        Except.error (("regex must be provided for browser: ").data ++ bc2.name)) ∧
    (∀ rest, compileBrowsers (bc :: rest) = compileBrowsers rest) := by
  constructor
  · rcases validateBrowsers_error cfg.allowedBrowsers ⟨bc, hmem, hr⟩ with
      ⟨bc2, hmem2, hr2, heq⟩
    refine ⟨bc2, hmem2, hr2, ?_⟩
    have hlen : ¬ cfg.allowedBrowsers.length = 0 := by
      intro h0
      rw [List.length_eq_zero] at h0
      rw [h0] at hmem
      cases hmem
    simp only [NewBlock, ValidateConfig]
    rw [if_neg hlen, heq]
  · intro rest
    exact compileBrowsers_skip bc rest hr hv

/-- C4 amended witness at a one-rule configuration. -/
theorem c4_inert_rule_amended_witness :
    (⟨("Ghost").data, [], []⟩ : BrowserConfig) ∈
      (⟨[⟨("Ghost").data, [], []⟩], []⟩ : Config).allowedBrowsers ∧
    (⟨("Ghost").data, [], []⟩ : BrowserConfig).regex = [] ∧
    (⟨("Ghost").data, [], []⟩ : BrowserConfig).version = [] ∧
    ((∃ bc2, bc2 ∈ (⟨[⟨("Ghost").data, [], []⟩], []⟩ : Config).allowedBrowsers ∧
        bc2.regex = [] ∧
        NewBlock ⟨[⟨("Ghost").data, [], []⟩], []⟩ ("p").data =
          Except.error (("regex must be provided for browser: ").data ++ bc2.name)) ∧
      (∀ rest, compileBrowsers (⟨("Ghost").data, [], []⟩ :: rest) =
        compileBrowsers rest)) :=
  ⟨by decide, rfl, rfl, c4_inert_rule_amended _ _ _ (by decide) rfl rfl⟩

/-- C8: whenever some rule's selected pattern or some OS pattern fails to
compile, Construct aborts with no filter instance, and the error is the
compile error of an offending browser rule (naming the rule and wrapping
the parse error) or of an offending OS pattern (quoting the pattern and
wrapping the parse error). -/
theorem c8_invalid_pattern_aborts (cfg : Config) (nm : List Char)
    (h : (∃ bc ∈ cfg.allowedBrowsers, ∃ p, effPattern bc = some p ∧
            compileModel p = none) ∨
         (∃ p ∈ cfg.allowedOSTypes, compileModel p = none)) :
    ∃ e, NewMain cfg nm = Except.error e ∧
      ((∃ bc ∈ cfg.allowedBrowsers, ∃ p, effPattern bc = some p ∧
          compileModel p = none ∧ e = browserRegexErr bc.name p) ∨
       (∃ p ∈ cfg.allowedOSTypes, compileModel p = none ∧ e = osRegexErr p)) := by
  cases hcb : compileBrowsers cfg.allowedBrowsers with
  | error e =>
      refine ⟨e, ?_, Or.inl (compileBrowsers_error_inv _ _ hcb)⟩
      simp [NewMain, hcb]
  | ok rs =>
      cases hos : compileOSTypes cfg.allowedOSTypes with
      | error e =>
          refine ⟨e, ?_, Or.inr (compileOSTypes_error_inv _ _ hos)⟩
          simp [NewMain, hcb, hos]
      | ok os =>
          exfalso
          rcases h with ⟨bc, hmem, p, heff, hcm⟩ | ⟨p, hmem, hcm⟩
          · exact compileBrowsers_ok_inv _ _ hcb bc hmem p heff hcm
          · exact compileOSTypes_ok_inv _ _ hos p hmem hcm

/-- C8 witness: an unclosed group in an explicit browser pattern. -/
theorem c8_invalid_pattern_aborts_witness :
    ((∃ bc ∈ (⟨[⟨("A").data, ("(").data, []⟩], []⟩ : Config).allowedBrowsers,
        ∃ p, effPattern bc = some p ∧ compileModel p = none) ∨
      (∃ p ∈ (⟨[⟨("A").data, ("(").data, []⟩], []⟩ : Config).allowedOSTypes,
        compileModel p = none)) ∧
    (∃ e, NewMain ⟨[⟨("A").data, ("(").data, []⟩], []⟩ ("p").data = Except.error e ∧
      ((∃ bc ∈ (⟨[⟨("A").data, ("(").data, []⟩], []⟩ : Config).allowedBrowsers,
          ∃ p, effPattern bc = some p ∧ compileModel p = none ∧
            e = browserRegexErr bc.name p) ∨
       (∃ p ∈ (⟨[⟨("A").data, ("(").data, []⟩], []⟩ : Config).allowedOSTypes,
          compileModel p = none ∧ e = osRegexErr p))) := by
  have hi : (∃ bc ∈ (⟨[⟨("A").data, ("(").data, []⟩], []⟩ : Config).allowedBrowsers,
      ∃ p, effPattern bc = some p ∧ compileModel p = none) ∨
      (∃ p ∈ (⟨[⟨("A").data, ("(").data, []⟩], []⟩ : Config).allowedOSTypes,
        compileModel p = none) :=
    Or.inl ⟨⟨("A").data, ("(").data, []⟩, by decide, ("(").data, by decide, by decide⟩
  exact ⟨hi, c8_invalid_pattern_aborts _ _ hi⟩
